import Mathlib

/-!
Verification of the character-level text-generation pipeline in
`2020.09/lstm_swesb_text_gen.py`.

The data-preparation functions (`get_dataset_and_info` together with its
inner `seq_to_supervised`, and the windowing done by
`Dataset.batch(SEQUENCE_LEN + 1, drop_remainder=True)`) and the sampling
loop `generate_text` are embedded shallowly:

* text is a `List Char`;
* `vocab text` embeds `sorted(set(text))`;
* `char2id` embeds the dictionary `{c: i for i, c in enumerate(vocab)}`
  (lookup of a missing key is `none`, mirroring a Python `KeyError`);
* `id2char` embeds indexing the `np.array(vocab)` (`none` mirrors an
  out-of-range index error);
* `encode` embeds the comprehension `[char2id[c] for c in text]`;
* `batchDropRemainder` embeds `Dataset.batch(n, drop_remainder=True)`;
* `seq_to_supervised` embeds `X = seq[:-1]; Y = seq[1:]`;
* `generate_text` embeds the sampling loop, with the stateful Keras model
  abstracted as a step function `σ → List Nat → σ × L` (the call
  `model(char_ids)[:, -1]` : new recurrent state plus last-position
  logits of abstract type `L`) and the fixed random source of
  `tf.random.categorical` abstracted as `sample : Nat → L → Nat`
  (iteration index and logits to drawn id).
-/

/-- Embeds `vocab = sorted(set(text))`: the distinct characters of the
text in ascending order. -/
def vocab (text : List Char) : List Char :=
  text.dedup.insertionSort (· ≤ ·)

/-- Helper for `char2id`: scan the vocabulary for `c`, counting from `i`.
First match wins; the vocabulary has distinct entries, so this agrees with
the Python dict built by `{c: i for i, c in enumerate(vocab)}`. -/
def char2idAux (c : Char) : List Char → Nat → Option Nat
  | [], _ => none
  | x :: xs, i => if c = x then some i else char2idAux c xs (i + 1)

/-- Embeds lookup in `char2id = {c: i for i, c in enumerate(vocab)}`;
`none` mirrors a `KeyError`. -/
def char2id (v : List Char) (c : Char) : Option Nat :=
  char2idAux c v 0

/-- Embeds indexing `id2char = np.array(vocab)` at `i`; `none` mirrors an
out-of-range index error. -/
def id2char (v : List Char) (i : Nat) : Option Char :=
  v[i]?

/-- Embeds `[char2id[c] for c in text]`: `none` as soon as one lookup
raises `KeyError`. -/
def encode (v : List Char) : List Char → Option (List Nat)
  | [] => some []
  | c :: cs =>
    match char2id v c, encode v cs with
    | some i, some is => some (i :: is)
    | _, _ => none

/-- Embeds `text_as_ids = np.array([char2id[c] for c in text])` built by
`get_dataset_and_info` over the vocabulary of the text itself. -/
def textAsIds (text : List Char) : Option (List Nat) :=
  encode (vocab text) text

/-- Recursion core of `batchDropRemainder`. The fuel argument only
bounds the number of chunks taken (each chunk consumes at least one
element, so `l.length` fuel is always enough); it keeps the recursion
structural so that the definition evaluates by reduction. -/
def batchDropAux (n : Nat) : Nat → List α → List (List α)
  | 0, _ => []
  | fuel + 1, l =>
    if 0 < n ∧ n ≤ l.length then
      l.take n :: batchDropAux n fuel (l.drop n)
    else []

/-- Embeds `char_sequences = char_dataset.batch(n, drop_remainder=True)`:
consecutive chunks of exactly `n` elements, the shorter trailing
remainder dropped. -/
def batchDropRemainder (n : Nat) (l : List α) : List (List α) :=
  batchDropAux n l.length l

/-- Embeds the inner `seq_to_supervised`: `X = seq[:-1]`, `Y = seq[1:]`. -/
def seq_to_supervised (seq : List Nat) : List Nat × List Nat :=
  (seq.dropLast, seq.tail)

/-- Embeds the windows of `get_dataset_and_info` for a given
`SEQUENCE_LEN`: batch into chunks of `SEQUENCE_LEN + 1` ids. -/
def windows (sequenceLen : Nat) (ids : List Nat) : List (List Nat) :=
  batchDropRemainder (sequenceLen + 1) ids

section Vocab

theorem vocab_perm_dedup (text : List Char) :
    List.Perm (vocab text) text.dedup :=
  List.perm_insertionSort _ _

theorem vocab_count (text : List Char) (c : Char) :
    (vocab text).count c = if c ∈ text then 1 else 0 := by
  rw [(vocab_perm_dedup text).count_eq, List.count_dedup]

theorem vocab_nodup (text : List Char) : (vocab text).Nodup :=
  (vocab_perm_dedup text).nodup_iff.mpr (List.nodup_dedup text)

theorem vocab_sorted_le (text : List Char) :
    (vocab text).Sorted (· ≤ ·) :=
  List.sorted_insertionSort _ _

theorem vocab_sorted_lt (text : List Char) :
    (vocab text).Sorted (· < ·) :=
  (vocab_sorted_le text).lt_of_le (vocab_nodup text)

theorem mem_vocab (text : List Char) (c : Char) :
    c ∈ vocab text ↔ c ∈ text := by
  rw [(vocab_perm_dedup text).mem_iff, List.mem_dedup]

end Vocab

section CharId

theorem mem_of_getElem_eq_some {l : List Char} {i : Nat} {c : Char}
    (h : l[i]? = some c) : c ∈ l := by
  obtain ⟨hlt, hget⟩ := List.getElem?_eq_some.mp h
  exact hget ▸ List.getElem_mem hlt

theorem char2idAux_le (c : Char) :
    ∀ (v : List Char) (i m : Nat), char2idAux c v i = some m → i ≤ m := by
  intro v
  induction v with
  | nil => intro i m h; simp [char2idAux] at h
  | cons x xs ih =>
    intro i m h
    rw [char2idAux] at h
    by_cases hc : c = x
    · simp [hc] at h
      omega
    · simp [hc] at h
      have := ih (i + 1) m h
      omega

theorem char2idAux_get (c : Char) :
    ∀ (v : List Char) (i m : Nat), char2idAux c v i = some m →
      v[m - i]? = some c := by
  intro v
  induction v with
  | nil => intro i m h; simp [char2idAux] at h
  | cons x xs ih =>
    intro i m h
    rw [char2idAux] at h
    by_cases hc : c = x
    · simp [hc] at h
      simp [← h, hc]
    · simp [hc] at h
      have hle := char2idAux_le c xs (i + 1) m h
      have hx := ih (i + 1) m h
      have hmi : m - i = (m - (i + 1)) + 1 := by omega
      rw [hmi]
      simpa using hx

theorem char2idAux_of_get (c : Char) :
    ∀ (v : List Char), v.Nodup → ∀ (i k : Nat), v[k]? = some c →
      char2idAux c v i = some (i + k) := by
  intro v
  induction v with
  | nil => intro _ i k h; simp at h
  | cons x xs ih =>
    intro hnd i k h
    rw [char2idAux]
    cases k with
    | zero =>
      simp at h
      simp [h]
    | succ k =>
      simp at h
      have hcx : ¬c = x := by
        intro hcx
        have hmem : c ∈ xs := mem_of_getElem_eq_some h
        rw [List.nodup_cons] at hnd
        exact hnd.1 (hcx ▸ hmem)
      simp only [hcx, if_false]
      have := ih (List.Nodup.of_cons hnd) (i + 1) k h
      rw [this]
      congr 1
      omega

theorem char2id_get (v : List Char) (c : Char) (m : Nat)
    (h : char2id v c = some m) : v[m]? = some c := by
  have := char2idAux_get c v 0 m h
  simpa using this

theorem char2id_lt_length (v : List Char) (c : Char) (m : Nat)
    (h : char2id v c = some m) : m < v.length := by
  have := char2id_get v c m h
  exact (List.getElem?_eq_some.mp this).1

theorem char2id_of_get (v : List Char) (hnd : v.Nodup) (k : Nat) (c : Char)
    (h : v[k]? = some c) : char2id v c = some k := by
  have := char2idAux_of_get c v hnd 0 k h
  simpa using this

theorem char2idAux_isSome_of_mem (c : Char) :
    ∀ (v : List Char) (i : Nat), c ∈ v → ∃ m, char2idAux c v i = some m := by
  intro v
  induction v with
  | nil => intro i h; simp at h
  | cons x xs ih =>
    intro i h
    rw [char2idAux]
    by_cases hc : c = x
    · exact ⟨i, by simp [hc]⟩
    · simp only [hc, if_false]
      rcases List.mem_cons.mp h with rfl | h2
      · exact absurd rfl hc
      · exact ih (i + 1) h2

theorem char2id_isSome_of_mem (v : List Char) (c : Char)
    (hc : c ∈ v) : ∃ m, char2id v c = some m :=
  char2idAux_isSome_of_mem c v 0 hc

theorem char2id_none_of_not_mem (v : List Char) (c : Char)
    (hc : c ∉ v) : char2id v c = none := by
  cases h : char2id v c with
  | none => rfl
  | some m =>
    exact absurd (mem_of_getElem_eq_some (char2id_get v c m h)) hc

end CharId

section Encode

theorem encode_eq_some (v : List Char) :
    ∀ (s : List Char), (∀ c ∈ s, c ∈ v) →
      ∃ ids, encode v s = some ids ∧ ids.length = s.length ∧
        ∀ i ∈ ids, i < v.length := by
  intro s
  induction s with
  | nil => intro _; exact ⟨[], rfl, rfl, by simp⟩
  | cons c cs ih =>
    intro hmem
    obtain ⟨m, hm⟩ := char2id_isSome_of_mem v c (hmem c (by simp))
    obtain ⟨ids, hids, hlen, hlt⟩ := ih (fun d hd => hmem d (by simp [hd]))
    refine ⟨m :: ids, ?_, by simp [hlen], ?_⟩
    · rw [encode, hm, hids]
    · intro i hi
      rcases List.mem_cons.mp hi with h | h
      · exact h ▸ char2id_lt_length v c m hm
      · exact hlt i h

theorem encode_eq_none (v : List Char) :
    ∀ (s : List Char), (∃ c ∈ s, c ∉ v) → encode v s = none := by
  intro s
  induction s with
  | nil => intro h; simp at h
  | cons c cs ih =>
    intro h
    rw [encode]
    by_cases hc : c ∈ v
    · obtain ⟨d, hd, hdv⟩ := h
      rcases List.mem_cons.mp hd with rfl | hdcs
      · exact absurd hc hdv
      · rw [ih ⟨d, hdcs, hdv⟩]
        cases char2id v c <;> rfl
    · rw [char2id_none_of_not_mem v c hc]

end Encode

section Batch

theorem batchDropAux_chunk_length (n : Nat) :
    ∀ (fuel : Nat) (l : List α), ∀ w ∈ batchDropAux n fuel l,
      w.length = n := by
  intro fuel
  induction fuel with
  | zero => intro l w hw; simp [batchDropAux] at hw
  | succ fuel ih =>
    intro l w hw
    rw [batchDropAux] at hw
    split at hw
    · next h =>
      rcases List.mem_cons.mp hw with rfl | hw
      · simp [List.length_take]
        omega
      · exact ih (l.drop n) w hw
    · simp at hw

theorem batchDropRemainder_chunk_length (n : Nat) (l : List α) :
    ∀ w ∈ batchDropRemainder n l, w.length = n :=
  batchDropAux_chunk_length n l.length l

theorem batchDropAux_length (n : Nat) (hn : 0 < n) :
    ∀ (fuel : Nat) (l : List α), l.length ≤ fuel →
      (batchDropAux n fuel l).length = l.length / n := by
  intro fuel
  induction fuel with
  | zero =>
    intro l hl
    have : l.length = 0 := by omega
    simp [batchDropAux, this]
  | succ fuel ih =>
    intro l hl
    rw [batchDropAux]
    split
    · next h =>
      have hrec := ih (l.drop n) (by simp; omega)
      simp only [List.length_cons, hrec, List.length_drop]
      rw [Nat.div_eq_sub_div hn h.2]
    · next h =>
      have hlt : l.length < n := by
        rcases Nat.lt_or_ge l.length n with h1 | h1
        · exact h1
        · exact absurd ⟨hn, h1⟩ h
      simp [Nat.div_eq_of_lt hlt]

theorem batchDropRemainder_length (n : Nat) (hn : 0 < n) (l : List α) :
    (batchDropRemainder n l).length = l.length / n :=
  batchDropAux_length n hn l.length l (Nat.le_refl _)

theorem batchDropAux_flatten (n : Nat) (hn : 0 < n) :
    ∀ (fuel : Nat) (l : List α), l.length ≤ fuel →
      (batchDropAux n fuel l).flatten = l.take (n * (l.length / n)) := by
  intro fuel
  induction fuel with
  | zero =>
    intro l hl
    have : l.length = 0 := by omega
    rw [List.length_eq_zero] at this
    simp [batchDropAux, this]
  | succ fuel ih =>
    intro l hl
    rw [batchDropAux]
    split
    · next h =>
      have hrec := ih (l.drop n) (by simp; omega)
      simp only [List.flatten_cons, hrec, List.length_drop]
      rw [Nat.div_eq_sub_div hn h.2, Nat.mul_add, Nat.mul_one, Nat.add_comm,
        List.take_add]
    · next h =>
      have hlt : l.length < n := by
        rcases Nat.lt_or_ge l.length n with h1 | h1
        · exact h1
        · exact absurd ⟨hn, h1⟩ h
      simp [Nat.div_eq_of_lt hlt]

theorem batchDropRemainder_flatten (n : Nat) (hn : 0 < n) (l : List α) :
    (batchDropRemainder n l).flatten = l.take (n * (l.length / n)) :=
  batchDropAux_flatten n hn l.length l (Nat.le_refl _)

theorem batchDropRemainder_eq_nil (n : Nat) (l : List α)
    (h : l.length < n) : batchDropRemainder n l = [] := by
  rw [batchDropRemainder]
  cases hl : l.length with
  | zero => rfl
  | succ m =>
    rw [batchDropAux]
    split
    · next hcond => omega
    · rfl

end Batch

section Supervised

theorem seq_to_supervised_length (seq : List Nat) (m : Nat)
    (h : seq.length = m + 1) :
    (seq_to_supervised seq).1.length = m ∧
      (seq_to_supervised seq).2.length = m := by
  constructor
  · simp [seq_to_supervised, List.length_dropLast, h]
  · simp [seq_to_supervised, List.length_tail, h]

theorem seq_to_supervised_shift (seq : List Nat) (i : Nat)
    (h : i + 1 < (seq_to_supervised seq).1.length) :
    (seq_to_supervised seq).2[i]? = (seq_to_supervised seq).1[i + 1]? := by
  simp only [seq_to_supervised, List.length_dropLast] at h ⊢
  rw [List.getElem?_tail]
  rw [List.dropLast_eq_take, List.getElem?_take_of_lt h]

/-- The body of the `for _ in range(num_generate)` loop of
`generate_text`. `step` abstracts the stateful model call
`model(char_ids)[:, -1]` (new recurrent state, last-position logits);
`sample` abstracts the fixed random source behind
`tf.random.categorical(Y, num_samples=1)[-1, 0]` at each iteration
index. Note that `charIds` is threaded through unchanged: the source
never reassigns `char_ids` inside the loop. The drawn id is decoded via
`id2char` (`none` mirrors an out-of-range index error). -/
def genLoop {σ L : Type} (step : σ → List Nat → σ × L)
    (sample : Nat → L → Nat) (i2c : List Char) (charIds : List Nat) :
    σ → Nat → Nat → Option (List Char)
  | _, _, 0 => some []
  | st, i, n + 1 =>
    let res := step st charIds
    let pred := sample i res.2
    match id2char i2c pred with
    | none => none
    | some ch =>
      Option.map (fun rest => ch :: rest)
        (genLoop step sample i2c charIds res.1 (i + 1) n)

/-- Embeds `generate_text(model, start_string, char2id, id2char,
num_generate)`: reset the model state to `s0`, encode the seed with the
`char2id` dict over `c2v` (a `KeyError` is `none`), run the sampling
loop, and return the seed followed by the generated characters. -/
def generate_text {σ L : Type} (step : σ → List Nat → σ × L) (s0 : σ)
    (sample : Nat → L → Nat) (start : List Char) (c2v i2c : List Char)
    (numGenerate : Nat) : Option (List Char) :=
  match encode c2v start with
  | none => none
  | some charIds =>
    Option.map (fun generated => start ++ generated)
      (genLoop step sample i2c charIds s0 0 numGenerate)

/-- The sequence of inputs the model receives across the iterations of
the `generate_text` loop, one entry per executed `model(char_ids)` call
(the loop aborts after a call when decoding the drawn id fails). -/
def genInputs {σ L : Type} (step : σ → List Nat → σ × L)
    (sample : Nat → L → Nat) (i2c : List Char) (charIds : List Nat) :
    σ → Nat → Nat → List (List Nat)
  | _, _, 0 => []
  | st, i, n + 1 =>
    let res := step st charIds
    let pred := sample i res.2
    charIds ::
      (if pred < i2c.length then
        genInputs step sample i2c charIds res.1 (i + 1) n
      else [])

/-- The inputs the model receives during `generate_text` on a given seed
string. -/
def generateInputs {σ L : Type} (step : σ → List Nat → σ × L) (s0 : σ)
    (sample : Nat → L → Nat) (start : List Char) (c2v i2c : List Char)
    (numGenerate : Nat) : List (List Nat) :=
  match encode c2v start with
  | none => []
  | some charIds => genInputs step sample i2c charIds s0 0 numGenerate

section GenLoop

theorem genLoop_some {σ L : Type} (step : σ → List Nat → σ × L)
    (sample : Nat → L → Nat) (i2c : List Char) (charIds : List Nat)
    (hs : ∀ i Y, sample i Y < i2c.length) :
    ∀ (n : Nat) (st : σ) (i : Nat),
      ∃ out, genLoop step sample i2c charIds st i n = some out ∧
        out.length = n := by
  intro n
  induction n with
  | zero => intro st i; exact ⟨[], rfl, rfl⟩
  | succ n ih =>
    intro st i
    obtain ⟨out, hout, hlen⟩ := ih (step st charIds).1 (i + 1)
    have hpred : sample i (step st charIds).2 < i2c.length := hs _ _
    obtain ⟨ch, hch⟩ :
        ∃ ch, id2char i2c (sample i (step st charIds).2) = some ch := by
      rw [id2char]
      exact ⟨_, List.getElem?_eq_some.mpr ⟨hpred, rfl⟩⟩
    refine ⟨ch :: out, ?_, by simp [hlen]⟩
    rw [genLoop]
    simp only [hch, hout]
    rfl

theorem genInputs_const {σ L : Type} (step : σ → List Nat → σ × L)
    (sample : Nat → L → Nat) (i2c : List Char) (charIds : List Nat)
    (hs : ∀ i Y, sample i Y < i2c.length) :
    ∀ (n : Nat) (st : σ) (i : Nat),
      genInputs step sample i2c charIds st i n =
        List.replicate n charIds := by
  intro n
  induction n with
  | zero => intro st i; rfl
  | succ n ih =>
    intro st i
    rw [genInputs]
    simp only [hs _ _, if_pos, ih, List.replicate_succ]

end GenLoop

/-- C2: for every input text, the vocabulary built by
`get_dataset_and_info` contains each character occurring in the text
exactly once and no other characters, and is sorted strictly ascending
by character code, hence deterministic for a fixed input. -/
theorem C2_vocab_exact_once_sorted (text : List Char) (c : Char) :
    (vocab text).count c = (if c ∈ text then 1 else 0) ∧
      (vocab text).Sorted (· < ·) :=
  ⟨vocab_count text c, vocab_sorted_lt text⟩

/-- C3: over the vocabulary of any text, the char2id and id2char
mappings of `get_dataset_and_info` are exact inverses: decoding the
encoding of any vocabulary character returns that character, and
encoding the decoding of any id in range returns that id. -/
theorem C3_char2id_id2char_inverse (text : List Char) :
    (∀ c ∈ vocab text, ∃ i, char2id (vocab text) c = some i ∧
        id2char (vocab text) i = some c) ∧
      ∀ i, i < (vocab text).length → ∃ c, id2char (vocab text) i = some c ∧
        char2id (vocab text) c = some i := by
  constructor
  · intro c hc
    obtain ⟨i, hi⟩ := char2id_isSome_of_mem _ c hc
    exact ⟨i, hi, char2id_get _ _ _ hi⟩
  · intro i hi
    refine ⟨(vocab text)[i], ?_, ?_⟩
    · rw [id2char]
      exact List.getElem?_eq_some.mpr ⟨hi, rfl⟩
    · exact char2id_of_get _ (vocab_nodup text) i _
        (List.getElem?_eq_some.mpr ⟨hi, rfl⟩)

/-- Witness for C3 at the concrete text "ba". -/
theorem C3_witness :
    (∃ i, char2id (vocab ['b', 'a']) 'a' = some i ∧
        id2char (vocab ['b', 'a']) i = some 'a') ∧
      ∃ c, id2char (vocab ['b', 'a']) 0 = some c ∧
        char2id (vocab ['b', 'a']) c = some 0 :=
  ⟨(C3_char2id_id2char_inverse ['b', 'a']).1 'a' (by decide),
    (C3_char2id_id2char_inverse ['b', 'a']).2 0 (by decide)⟩

/-- C4: every window produced by the windower (a chunk of
`sequenceLen + 1` ids split by `seq_to_supervised` into X = all but the
last id and Y = all but the first id) satisfies
`X.length = Y.length = sequenceLen`, and `Y[i] = X[i + 1]` at every
index where both sides are defined. -/
theorem C4_window_split_shift (sequenceLen : Nat) (ids : List Nat) :
    ∀ w ∈ windows sequenceLen ids,
      (seq_to_supervised w).1.length = sequenceLen ∧
        (seq_to_supervised w).2.length = sequenceLen ∧
        ∀ i, i + 1 < (seq_to_supervised w).1.length →
          (seq_to_supervised w).2[i]? = (seq_to_supervised w).1[i + 1]? := by
  intro w hw
  have hlen : w.length = sequenceLen + 1 :=
    batchDropRemainder_chunk_length _ ids w hw
  obtain ⟨h1, h2⟩ := seq_to_supervised_length w sequenceLen hlen
  exact ⟨h1, h2, fun i hi => seq_to_supervised_shift w i hi⟩

/-- Witness for C4 on the window [5, 6, 7] with sequence length 2. -/
theorem C4_witness :
    (seq_to_supervised [5, 6, 7]).1.length = 2 ∧
      (seq_to_supervised [5, 6, 7]).2.length = 2 ∧
      (seq_to_supervised [5, 6, 7]).2[0]? =
        (seq_to_supervised [5, 6, 7]).1[0 + 1]? := by
  have h := C4_window_split_shift 2 [5, 6, 7] [5, 6, 7] (by decide)
  exact ⟨h.1, h.2.1, h.2.2 0 (by decide)⟩

/-- C5: the windower partitions the id-encoded text into consecutive
non-overlapping chunks of exactly `sequenceLen + 1` ids (their
concatenation is the corresponding initial segment of the text), drops
the shorter trailing remainder without padding, produces exactly
`ids.length / (sequenceLen + 1)` windows, and produces no window from a
text shorter than `sequenceLen + 1`. -/
theorem C5_window_partition_count (sequenceLen : Nat) (ids : List Nat) :
    (∀ w ∈ windows sequenceLen ids, w.length = sequenceLen + 1) ∧
      (windows sequenceLen ids).flatten =
        ids.take ((sequenceLen + 1) * (ids.length / (sequenceLen + 1))) ∧
      (windows sequenceLen ids).length = ids.length / (sequenceLen + 1) ∧
      (ids.length < sequenceLen + 1 → windows sequenceLen ids = []) :=
  ⟨batchDropRemainder_chunk_length _ ids,
    batchDropRemainder_flatten _ (Nat.succ_pos _) ids,
    batchDropRemainder_length _ (Nat.succ_pos _) ids,
    fun h => batchDropRemainder_eq_nil _ ids h⟩

/-- Witness for C5 with sequence length 1 on the texts [7, 8, 9] and
[0]. -/
theorem C5_witness :
    ([7, 8] : List Nat).length = 1 + 1 ∧
      (windows 1 [7, 8, 9]).length = ([7, 8, 9] : List Nat).length / (1 + 1) ∧
      windows 1 [0] = [] :=
  ⟨(C5_window_partition_count 1 [7, 8, 9]).1 [7, 8] (by decide),
    (C5_window_partition_count 1 [7, 8, 9]).2.2.1,
    (C5_window_partition_count 1 [0]).2.2.2 (by decide)⟩

/-- C8 as stated is false on the code: for the input "abcabcabc" with
sequence length 3 the id-encoded text [0,1,2,0,1,2,0,1,2] yields two
windows, [0,1,2,0] and [1,2,0,1], not the single window [0,1,2,0]
(9 ids hold two full chunks of 4 with one id left over). -/
theorem C8_counterexample :
    windows 3 [0, 1, 2, 0, 1, 2, 0, 1, 2] ≠ [[0, 1, 2, 0]] := by
  decide

/-- C8 amended: for the input "abcabcabc" with sequence length 3, the
vocabulary is ['a','b','c'] with ids 0,1,2, the id-encoded text is
[0,1,2,0,1,2,0,1,2], and the windower produces two windows of length 4,
[0,1,2,0] split into X=[0,1,2], Y=[1,2,0] and [1,2,0,1] split into
X=[1,2,0], Y=[2,0,1], the trailing single id dropped. -/
theorem C8_amended_pipeline :
    vocab ['a', 'b', 'c', 'a', 'b', 'c', 'a', 'b', 'c'] = ['a', 'b', 'c'] ∧
      char2id ['a', 'b', 'c'] 'a' = some 0 ∧
      char2id ['a', 'b', 'c'] 'b' = some 1 ∧
      char2id ['a', 'b', 'c'] 'c' = some 2 ∧
      textAsIds ['a', 'b', 'c', 'a', 'b', 'c', 'a', 'b', 'c'] =
        some [0, 1, 2, 0, 1, 2, 0, 1, 2] ∧
      windows 3 [0, 1, 2, 0, 1, 2, 0, 1, 2] =
        [[0, 1, 2, 0], [1, 2, 0, 1]] ∧
      seq_to_supervised [0, 1, 2, 0] = ([0, 1, 2], [1, 2, 0]) ∧
      seq_to_supervised [1, 2, 0, 1] = ([1, 2, 0], [2, 0, 1]) := by
  decide

/-- C6: whenever every seed character is in the char2id vocabulary and
the categorical draw always lands in range of id2char, `generate_text`
returns the seed followed by exactly `n` generated characters; with
`n = 0` it returns exactly the seed unchanged. -/
theorem C6_generate_text_seed_plus_n {σ L : Type}
    (step : σ → List Nat → σ × L) (s0 : σ) (sample : Nat → L → Nat)
    (start c2v i2c : List Char) (n : Nat)
    (hmem : ∀ c ∈ start, c ∈ c2v)
    (hs : ∀ i Y, sample i Y < i2c.length) :
    (∃ gen, generate_text step s0 sample start c2v i2c n =
        some (start ++ gen) ∧ gen.length = n) ∧
      generate_text step s0 sample start c2v i2c 0 = some start := by
  obtain ⟨ids, hids, _, _⟩ := encode_eq_some c2v start hmem
  constructor
  · obtain ⟨out, hout, hlen⟩ := genLoop_some step sample i2c ids hs n s0 0
    refine ⟨out, ?_, hlen⟩
    rw [generate_text, hids]
    show Option.map (fun generated => start ++ generated)
      (genLoop step sample i2c ids s0 0 n) = some (start ++ out)
    rw [hout]
    rfl
  · rw [generate_text, hids]
    show Option.map (fun generated => start ++ generated)
      (genLoop step sample i2c ids s0 0 0) = some start
    simp [genLoop]

/-- Witness for C6 with a trivial one-state model over vocabulary
['a']. -/
theorem C6_witness :
    (∃ gen, generate_text (fun (_ : Unit) (_ : List Nat) => ((), ()))
        () (fun _ _ => 0) ['a'] ['a'] ['a'] 1 = some (['a'] ++ gen) ∧
        gen.length = 1) ∧
      generate_text (fun (_ : Unit) (_ : List Nat) => ((), ()))
        () (fun _ _ => 0) ['a'] ['a'] ['a'] 0 = some ['a'] :=
  C6_generate_text_seed_plus_n (fun _ _ => ((), ())) () (fun _ _ => 0)
    ['a'] ['a'] ['a'] 1 (by decide) (fun _ _ => Nat.one_pos)

/-- C7: if the seed string contains a character absent from the char2id
vocabulary, `generate_text` fails at the seed-encoding step with a
lookup error before any character is generated and produces no partial
output, for every requested length; if every seed character is in the
vocabulary, the encoding step succeeds. -/
theorem C7_seed_lookup_error {σ L : Type}
    (step : σ → List Nat → σ × L) (s0 : σ) (sample : Nat → L → Nat)
    (start c2v i2c : List Char) (n : Nat) :
    ((∃ c ∈ start, c ∉ c2v) →
        generate_text step s0 sample start c2v i2c n = none) ∧
      ((∀ c ∈ start, c ∈ c2v) → ∃ ids, encode c2v start = some ids) := by
  constructor
  · intro h
    rw [generate_text, encode_eq_none c2v start h]
  · intro h
    obtain ⟨ids, hids, _, _⟩ := encode_eq_some c2v start h
    exact ⟨ids, hids⟩

/-- Witness for C7: seed "x" over vocabulary ['a'] fails; seed "a"
encodes. -/
theorem C7_witness :
    generate_text (fun (_ : Unit) (_ : List Nat) => ((), ())) ()
        (fun _ _ => 0) ['x'] ['a'] ['a'] 3 = none ∧
      ∃ ids, encode ['a'] ['a'] = some ids :=
  ⟨(C7_seed_lookup_error (fun _ _ => ((), ())) () (fun _ _ => 0)
      ['x'] ['a'] ['a'] 3).1 (by decide),
    (C7_seed_lookup_error (fun (_ : Unit) (_ : List Nat) => ((), ())) ()
      (fun _ _ => 0) ['a'] ['a'] ['a'] 3).2 (by decide)⟩

/-- C9: `generate_text` is deterministic under a fixed random source:
two runs with identical model step function, identical initial state,
identical sampling draws, identical seed string, identical mappings and
identical requested length return identical strings. -/
theorem C9_generate_text_deterministic {σ L : Type}
    (step step2 : σ → List Nat → σ × L) (s0 s02 : σ)
    (sample sample2 : Nat → L → Nat)
    (start start2 c2v c2v2 i2c i2c2 : List Char) (n n2 : Nat)
    (hstep : step = step2) (hs0 : s0 = s02) (hsample : sample = sample2)
    (hstart : start = start2) (hc2v : c2v = c2v2) (hi2c : i2c = i2c2)
    (hn : n = n2) :
    generate_text step s0 sample start c2v i2c n =
      generate_text step2 s02 sample2 start2 c2v2 i2c2 n2 := by
  subst hstep hs0 hsample hstart hc2v hi2c hn
  rfl

/-- Witness for C9 at a concrete model and seed. -/
theorem C9_witness :
    generate_text (fun (_ : Unit) (_ : List Nat) => ((), ())) ()
        (fun _ _ => 0) ['a'] ['a'] ['a'] 2 =
      generate_text (fun (_ : Unit) (_ : List Nat) => ((), ())) ()
        (fun _ _ => 0) ['a'] ['a'] ['a'] 2 :=
  C9_generate_text_deterministic _ _ _ _ _ _ _ _ _ _ _ _ _ _
    rfl rfl rfl rfl rfl rfl rfl

/-- C10: char2id enumerates the sorted vocabulary: it is strictly
increasing in character order, lands in 0 .. vocab_size - 1, attains
every id in that range at some vocabulary character, and consequently
the id-encoded text exists and each of its entries is a valid index
into id2char. -/
theorem C10_char2id_enumeration_invariant (text : List Char) :
    (∀ c d i j, c ∈ vocab text → d ∈ vocab text →
        char2id (vocab text) c = some i → char2id (vocab text) d = some j →
        c < d → i < j) ∧
      (∀ c i, char2id (vocab text) c = some i → i < (vocab text).length) ∧
      (∀ i, i < (vocab text).length →
        ∃ c ∈ vocab text, char2id (vocab text) c = some i) ∧
      ∃ ids, textAsIds text = some ids ∧
        ∀ x ∈ ids, x < (vocab text).length := by
  refine ⟨?_, ?_, ?_, ?_⟩
  · intro c d i j _ _ hci hdj hcd
    obtain ⟨hi, hgi⟩ := List.getElem?_eq_some.mp (char2id_get _ _ _ hci)
    obtain ⟨hj, hgj⟩ := List.getElem?_eq_some.mp (char2id_get _ _ _ hdj)
    by_contra hij
    push_neg at hij
    rcases Nat.lt_or_eq_of_le hij with hlt | heq
    · have := (vocab_sorted_lt text).rel_get_of_lt
        (a := ⟨j, hj⟩) (b := ⟨i, hi⟩) (Fin.mk_lt_mk.mpr hlt)
      rw [List.get_eq_getElem, List.get_eq_getElem, hgi, hgj] at this
      exact absurd (hcd.trans this) (lt_irrefl c)
    · subst heq
      rw [← hgi, ← hgj] at hcd
      exact lt_irrefl _ hcd
  · intro c i h
    exact char2id_lt_length _ c i h
  · intro i hi
    exact ⟨(vocab text)[i], List.getElem_mem hi,
      char2id_of_get _ (vocab_nodup text) i _
        (List.getElem?_eq_some.mpr ⟨hi, rfl⟩)⟩
  · obtain ⟨ids, hids, _, hlt⟩ := encode_eq_some (vocab text) text
      (fun c hc => (mem_vocab text c).mpr hc)
    exact ⟨ids, hids, hlt⟩

/-- Witness for C10 at the concrete text "ba". -/
theorem C10_witness :
    (0 : Nat) < 1 ∧ (0 : Nat) < (vocab ['b', 'a']).length ∧
      (∃ c ∈ vocab ['b', 'a'], char2id (vocab ['b', 'a']) c = some 1) ∧
      ∃ ids, textAsIds ['b', 'a'] = some ids ∧
        ∀ x ∈ ids, x < (vocab ['b', 'a']).length := by
  have h := C10_char2id_enumeration_invariant ['b', 'a']
  exact ⟨h.1 'a' 'b' 0 1 (by decide) (by decide) (by decide) (by decide)
      (by decide),
    h.2.1 'a' 0 (by decide), h.2.2.1 1 (by decide), h.2.2.2⟩

/-- C1: contrary to the claim, the loop of `generate_text` never
reassigns char_ids: as long as the drawn ids decode (so the loop keeps
running), every one of the n iterations feeds the model the full
encoded seed string, never the single most-recently-generated id. -/
theorem C1_every_iteration_feeds_whole_seed {σ L : Type}
    (step : σ → List Nat → σ × L) (s0 : σ) (sample : Nat → L → Nat)
    (start c2v i2c : List Char) (n : Nat) (ids : List Nat)
    (hids : encode c2v start = some ids)
    (hs : ∀ i Y, sample i Y < i2c.length) :
    generateInputs step s0 sample start c2v i2c n =
      List.replicate n ids := by
  rw [generateInputs, hids]
  exact genInputs_const step sample i2c ids hs n s0 0

/-- Witness for C1: with seed "ab" over vocabulary ['a','b'] and two
requested characters, both iterations are fed the whole encoded seed
[0, 1]; in particular the second input is not a single id. -/
theorem C1_witness :
    generateInputs (fun (_ : Unit) (_ : List Nat) => ((), ())) ()
        (fun _ _ => 0) ['a', 'b'] ['a', 'b'] ['a', 'b'] 2 =
      List.replicate 2 [0, 1] :=
  C1_every_iteration_feeds_whole_seed (fun _ _ => ((), ())) ()
    (fun _ _ => 0) ['a', 'b'] ['a', 'b'] ['a', 'b'] 2 [0, 1]
    (by decide) (fun _ _ => by exact Nat.lt_of_sub_eq_succ rfl)
